import Mathlib

/-!
Verification of the phetour static-site generator (Go sources: keylock
(part_000), parser.go, posts.go, build.go, main.go) against its
natural-language specification.  Go strings are modelled as Lean `String`
(or `List Char` where byte-level operations matter), Go `int` identifiers
as `Nat` (all identifiers minted by the program are positive), Go slices
as `List`, and fallible operations as `Option`/`Except`.
-/

/-- Registry entry, Go struct `Key { ID int; Value string }` (part_000). -/
structure Key where
  id : Nat
  value : String
deriving DecidableEq

/-- Registry, Go struct `Keylock { Keys []Key }` (part_000). -/
structure Keylock where
  keys : List Key
deriving DecidableEq

/-- `Keylock.AssureKey` (part_000 lines 84-97): linear scan for the first
entry with this value; if found return its id with no mutation, otherwise
mint `len(Keys)+1`, append the new entry and return the new id.
Returns the id together with the updated registry (the Go method mutates
the receiver). -/
def assureKey (keylock : Keylock) (value : String) : Nat × Keylock :=
  match keylock.keys.find? (fun key => key.value == value) with
  | some key => (key.id, keylock)
  | none =>
    let newID := keylock.keys.length + 1
    (newID, ⟨keylock.keys ++ [⟨newID, value⟩]⟩)

/-- Iterated `AssureKey`: the sequence of ids returned by successive calls,
together with the final registry. -/
def assureAll (keylock : Keylock) : List String → List Nat × Keylock
  | [] => ([], keylock)
  | v :: vs =>
    let r := assureKey keylock v
    let rest := assureAll r.2 vs
    (r.1 :: rest.1, rest.2)

/-- Decimal rendering of an id, model of Go `strconv.Itoa` on the
non-negative ints the registry holds (`Save`, part_000 line 74). -/
def itoa (n : Nat) : List Char := Nat.toDigits 10 n

/-- ASCII decimal digit test. -/
def isDigitChar (c : Char) : Bool := '0' ≤ c && c ≤ '9'

/-- Numeric value of a decimal digit character. -/
def digitVal (c : Char) : Nat := c.toNat - 48

/-- One step of decimal accumulation. -/
def decStep (a : Nat) (c : Char) : Nat := 10 * a + digitVal c

/-- Model of Go `strconv.Atoi` (`GetKeylock`, part_000 line 52) on the
canonical non-negative decimals `Save` writes: a non-empty all-digit
string parses to its value, anything else is the hard "invalid id" error
(`none`). -/
def atoi (s : List Char) : Option Nat :=
  if s ≠ [] ∧ s.all isDigitChar then some (s.foldl decStep 0) else none

/-- `Keylock.Save` (part_000 lines 66-82): serializes every entry, in
list order, as a `key` XML element with an `id` attribute (decimal via
`strconv.Itoa`) and a `value` attribute.  The lock file is modelled as
the ordered list of these attribute pairs. -/
def saveEntries (keylock : Keylock) : List (List Char × String) :=
  keylock.keys.map fun key => (itoa key.id, key.value)

/-- `GetKeylock` (part_000 lines 24-64) reading an existing lock file:
for each `key` element in order, parse the `id` attribute with
`strconv.Atoi` (a non-numeric id is a hard error, modelled by `none`)
and append `(id, value)` to the registry. -/
def loadKeylock (entries : List (List Char × String)) : Option Keylock :=
  match entries with
  | [] => some ⟨[]⟩
  | (ids, v) :: rest =>
    match atoi ids, loadKeylock rest with
    | some i, some kl => some ⟨⟨i, v⟩ :: kl.keys⟩
    | _, _ => none

/-- The sixteen lowercase hexadecimal digit characters. -/
def hexChars : List Char := "0123456789abcdef".toList

/-- `KeyIDToHex` (build.go lines 18-20): `fmt.Sprintf("0x%04x", id)` for a
non-negative id, i.e. `0x` followed by the lowercase hexadecimal digits of
`id`, left-padded with `0` to a minimum width of 4 (wider ids keep all
their digits). -/
def KeyIDToHex (id : Nat) : String :=
  let ds := Nat.toDigits 16 id
  ⟨'0' :: 'x' :: (List.replicate (4 - ds.length) '0' ++ ds)⟩


/-- Taxonomy tag, Go struct `Tag { Label string; Key int; Mentions []int }`
(parser.go). -/
structure Tag where
  label : String
  key : Nat
  mentions : List Nat

/-- Go struct `Taxonomy { Keylock *Keylock; Tags []Tag }` (parser.go). -/
structure Taxonomy where
  keylock : Keylock
  tags : List Tag

/-- The scan-and-update loop of `Taxonomy.AssureLabelFromDocument`
(parser.go lines 258-269): first tag with this label wins; if `document`
is already among its mentions nothing changes, otherwise `document` is
appended to that tag's mentions; `none` when no tag has the label. -/
def assureInTags : List Tag → String → Nat → Option (Nat × List Tag)
  | [], _, _ => none
  | t :: ts, label, document =>
    if t.label = label then
      if document ∈ t.mentions then some (t.key, t :: ts)
      else some (t.key, { t with mentions := t.mentions ++ [document] } :: ts)
    else
      match assureInTags ts label document with
      | none => none
      | some (k, ts') => some (k, t :: ts')

/-- `Taxonomy.AssureLabelFromDocument` (parser.go lines 256-281): if some
tag carries the label, return its key (recording the mention if new);
otherwise mint a key for `"TAG:" ++ label` via the registry and append a
fresh tag whose mentions are exactly `[document]`. -/
def assureLabelFromDocument (taxonomy : Taxonomy) (label : String) (document : Nat) :
    Nat × Taxonomy :=
  match assureInTags taxonomy.tags label document with
  | some (k, ts) => (k, { taxonomy with tags := ts })
  | none =>
    let r := assureKey taxonomy.keylock ("TAG:" ++ label)
    (r.1, ⟨r.2, taxonomy.tags ++ [⟨label, r.1, [document]⟩]⟩)

/-- Mentions invariant: no tag records the same post twice.  It holds for
the empty taxonomy `GetTaxonomy` creates and is preserved by
`AssureLabelFromDocument`, the only operation that touches mentions. -/
def WFMentions (taxonomy : Taxonomy) : Prop :=
  ∀ t ∈ taxonomy.tags, t.mentions.Nodup

/-- Canonical document node: an etree `Element` (tag, attributes in order,
ordered children) or a `CharData` text leaf.  These are the only token
kinds the program creates or copies. -/
inductive Node where
  | element (tag : String) (attrs : List (String × String)) (children : List Node)
  | charData (s : String)

/-- The ordered children of a node (empty for text leaves). -/
def Node.childrenOf : Node → List Node
  | .element _ _ cs => cs
  | .charData _ => []

/-- Go struct `Post` (posts.go lines 17-23); `Content` is the parsed
canonical document, rooted at its root element. -/
structure Post where
  name : String
  title : String
  key : Nat
  content : Node
  tags : List Nat

/-- Go struct `Source { Posts []Post }` (posts.go lines 25-27). -/
structure Source where
  posts : List Post

/-- Descending-identifier order on posts: the comparator
`-cmp.Compare(a.Key, b.Key)` of buildHomeCatalog (build.go line 328). -/
def postDesc (a b : Post) : Prop := b.key ≤ a.key

/-- Descending-identifier order on tags (build.go line 341). -/
def tagDesc (a b : Tag) : Prop := b.key ≤ a.key

instance : DecidableRel postDesc := fun a b => Nat.decLe b.key a.key

instance : DecidableRel tagDesc := fun a b => Nat.decLe b.key a.key

instance : IsTotal Post postDesc :=
  ⟨fun a b => (Nat.le_total b.key a.key).imp id id⟩

instance : IsTrans Post postDesc :=
  ⟨fun _ _ _ h1 h2 => Nat.le_trans h2 h1⟩

instance : IsTotal Tag tagDesc :=
  ⟨fun a b => (Nat.le_total b.key a.key).imp id id⟩

instance : IsTrans Tag tagDesc :=
  ⟨fun _ _ _ h1 h2 => Nat.le_trans h2 h1⟩

/-- The home-catalog link for a post (build.go lines 331-335). -/
def postLink (post : Post) : Node :=
  .element "link" [("href", "/" ++ KeyIDToHex post.key ++ "/")]
    [.charData (KeyIDToHex post.key ++ " - " ++ post.title)]

/-- The home-catalog link for a tag (build.go lines 344-348). -/
def tagLink (tag : Tag) : Node :=
  .element "link" [("href", "/" ++ KeyIDToHex tag.key ++ "/")]
    [.charData (KeyIDToHex tag.key ++ " - " ++ tag.label)]

/-- The blank separator text element (build.go lines 338-339). -/
def sepNode : Node := .element "text" [] [.charData ""]

/-- The post list after `slices.SortFunc(source.Posts, ...)` in
`buildHomeCatalog` (build.go line 328): `SortFunc` reorders the slice
into the comparator's order in place; it is modelled by a sort producing
a `postDesc`-ordered permutation. -/
def sortedPosts (source : Source) : List Post :=
  List.insertionSort postDesc source.posts

/-- The tag list after `slices.SortFunc(taxonomy.Tags, ...)` in
`buildHomeCatalog` (build.go line 341). -/
def sortedTags (taxonomy : Taxonomy) : List Tag :=
  List.insertionSort tagDesc taxonomy.tags

/-- Children of the `body` element `buildHomeCatalog` writes (build.go
lines 315-358): one link per post in descending-id order, the blank
separator, then one link per tag in descending-id order. -/
def buildHomeCatalogBody (source : Source) (taxonomy : Taxonomy) : List Node :=
  (sortedPosts source).map postLink ++ sepNode :: (sortedTags taxonomy).map tagLink

/-- The home-catalog document (build.go lines 315-358): meta with title
`փետուր`, then the body. -/
def buildHomeCatalog (source : Source) (taxonomy : Taxonomy) : Node :=
  .element "document" []
    [.element "meta" [] [.element "title" [("value", "փետուր")] []],
     .element "body" [] (buildHomeCatalogBody source taxonomy)]

/-- The in-memory effect of `Build` (build.go lines 37-89) on the shared
`Source` and `Taxonomy`: `buildPost` and `buildTag` only read them, but
`buildHomeCatalog`'s two `slices.SortFunc` calls (lines 328 and 341)
reorder `source.Posts` and `taxonomy.Tags` in place, so after `Build`
returns the caller's slices hold the descending-id permutations.  File
and directory output is not part of the in-memory state. -/
def buildInMemoryEffect (source : Source) (taxonomy : Taxonomy) : Source × Taxonomy :=
  (⟨sortedPosts source⟩, ⟨taxonomy.keylock, sortedTags taxonomy⟩)

/-- etree `Element.SelectElement` (first child element with this tag). -/
def selectElement (n : Node) (tag : String) : Option Node :=
  n.childrenOf.find? fun c =>
    match c with
    | .element t _ _ => t == tag
    | .charData _ => false

/-- etree `Element.SelectElements` (all child elements with this tag, in
order). -/
def selectElements (n : Node) (tag : String) : List Node :=
  n.childrenOf.filter fun c =>
    match c with
    | .element t _ _ => t == tag
    | .charData _ => false

/-- etree `Element.SelectAttrValue` with a default: the value of the
first attribute with this key, or the default when absent. -/
def selectAttrValue (n : Node) (key dflt : String) : String :=
  match n with
  | .element _ attrs _ =>
    match attrs.find? (fun p => p.1 == key) with
    | some p => p.2
    | none => dflt
  | .charData _ => dflt

/-- etree `Document.SelectElement` on a parsed post document: the
document's only child element is its root, so the selection yields the
root exactly when the root carries the tag. -/
def docSelect (root : Node) (tag : String) : Option Node :=
  match root with
  | .element t _ _ => if t == tag then some root else none
  | .charData _ => none

/-- The meta lookup of `buildPost` (build.go lines 104-111): try
`post.Content.SelectElement("meta")`, and when that fails and the root is
a `document` wrapper, look for `meta` under it. -/
def metaOf (root : Node) : Option Node :=
  match docSelect root "meta" with
  | some m => some m
  | none =>
    match root with
    | .element "document" _ _ => selectElement root "meta"
    | _ => none

/-- The body lookup of `buildPost` (build.go lines 177-184), same
two-step scheme with tag `body`. -/
def bodyOf (root : Node) : Option Node :=
  match docSelect root "body" with
  | some b => some b
  | none =>
    match root with
    | .element "document" _ _ => selectElement root "body"
    | _ => none

/-- The whitelist of body element tags `buildPost` copies (build.go
line 191). -/
def allowedTag (tag : String) : Bool :=
  tag == "bold" || tag == "text" || tag == "code" || tag == "item" || tag == "link"

/-- `copyElementChildren` (build.go lines 23-35) as a copy of one child:
an element is recreated with its tag, its attributes in order and
recursively copied children; a text token is recreated with its data.
(Those are the only token kinds in the node model.) -/
def copyNode : Node → Node
  | .element t a cs => .element t a (cs.attach.map fun c => copyNode c.1)
  | .charData s => .charData s
decreasing_by
  have h := List.sizeOf_lt_of_mem c.2
  simp only [Node.element.sizeOf_spec]
  omega

/-- The whitelist copy loop of `buildPost` (build.go lines 186-204): each
child element whose tag is allowed is deep-copied, text tokens are
preserved, and any other child element is silently dropped. -/
def copyAllowedChildren (children : List Node) : List Node :=
  children.filterMap fun child =>
    match child with
    | .element t a cs => if allowedTag t then some (.element t a ((copyNode (.element t a cs)).childrenOf)) else none
    | .charData s => some (.charData s)

/-- A body child survives the whitelist filter iff it is a text token or
an element with an allowed tag. -/
def keepNode : Node → Bool
  | .element t _ _ => allowedTag t
  | .charData _ => true

/-- The linear tag-key lookup of `buildPost` (build.go lines 160-166):
the key of the first taxonomy tag with this label, or the zero value. -/
def tagKeyFor (taxonomy : Taxonomy) (label : String) : Nat :=
  match taxonomy.tags.find? (fun t => t.label == label) with
  | some t => t.key
  | none => 0

/-- The leading `bold` title element of a rendered post page (build.go
lines 144-153): present when the meta was found, carries a title element,
and that title's `value` attribute is non-empty. -/
def titleBold (meta? : Option Node) : List Node :=
  match meta? with
  | none => []
  | some m =>
    match selectElement m "title" with
    | none => []
    | some titleElem =>
      if selectAttrValue titleElem "value" "" == "" then []
      else [.element "bold" [] [.charData (selectAttrValue titleElem "value" "")]]

/-- The tag links of a rendered post page (build.go lines 155-173): one
link per meta `tag` element whose label is non-empty and resolves to a
positive taxonomy key. -/
def metaTagLinks (meta? : Option Node) (taxonomy : Taxonomy) : List Node :=
  match meta? with
  | none => []
  | some m =>
    (selectElements m "tag").filterMap fun tagElem =>
      if selectAttrValue tagElem "label" "" == "" then none
      else if tagKeyFor taxonomy (selectAttrValue tagElem "label" "") > 0 then
        some (.element "link"
          [("href",
            "/" ++ KeyIDToHex (tagKeyFor taxonomy (selectAttrValue tagElem "label" "")) ++ "/")]
          [.charData (KeyIDToHex (tagKeyFor taxonomy (selectAttrValue tagElem "label" "")) ++
            " - " ++ selectAttrValue tagElem "label" "")])
      else none

/-- Children of the `body` element `buildPost` writes (build.go lines
141-204): the bold title, the tag links, then the whitelist-filtered copy
of the original body's children.  The fallback for a document with no
`body` element (build.go lines 205-252 re-parse the serialized XML) is
outside the node model and is represented by `none`. -/
def buildPostBody (root : Node) (taxonomy : Taxonomy) : Option (List Node) :=
  match bodyOf root with
  | none => none
  | some bodyElem =>
    some (titleBold (metaOf root) ++ metaTagLinks (metaOf root) taxonomy ++
      copyAllowedChildren bodyElem.childrenOf)

/-- A line of a source file (Go string, after `strings.Split(content, "\n")`). -/
abbrev Line := List Char

/-- The whitespace characters `strings.TrimSpace` / `strings.Fields` use
(the ASCII set of `unicode.IsSpace`; the sources are ASCII-framed). -/
def isSpaceChar (c : Char) : Bool := "\t\n\x0b\x0c\r ".toList.contains c

/-- Go `strings.TrimSpace`. -/
def trimSpace (l : Line) : Line :=
  ((l.dropWhile isSpaceChar).reverse.dropWhile isSpaceChar).reverse

/-- Go `strings.Fields`: the maximal runs of non-whitespace characters,
in order.  `cur` accumulates the current run in reverse. -/
def fieldsAux (cur : Line) : Line → List Line
  | [] => if cur = [] then [] else [cur.reverse]
  | c :: rest =>
    if isSpaceChar c then
      if cur = [] then fieldsAux [] rest else cur.reverse :: fieldsAux [] rest
    else fieldsAux (c :: cur) rest

/-- Go `strings.Fields`. -/
def fields (l : Line) : List Line := fieldsAux [] l

/-- Go `strings.Join` with a one-character separator. -/
def joinSep (c : Char) : List Line → Line
  | [] => []
  | [l] => l
  | l :: l' :: rest => l ++ c :: joinSep c (l' :: rest)

/-- The errors `ParseCustomSyntax` can raise (parser.go): fewer than two
lines, a malformed title line, a malformed tags line, or an unclosed code
block; `unclosedCode n` is the error `parseCodeBlock` formats as
"unclosed code block starting at line %d" with `n = startIdx+1`
(parser.go line 181). -/
inductive ParseErr where
  | tooFewLines
  | badTitleFormat
  | badTagsFormat
  | unclosedCode (line : Nat)
deriving DecidableEq

/-- The fence marker three-backtick string of parser.go. -/
def fenceMark : Line := "```".toList

/-- A line that opens or closes a code block: its trimmed form starts
with the fence marker (parser.go lines 92 and 174). -/
def isFenceLine (l : Line) : Bool := fenceMark.isPrefixOf (trimSpace l)

/-- The closing-fence scan of `parseCodeBlock` (parser.go lines 172-178):
split the lines after the opening fence at the first fence line,
returning the raw code lines and the lines after the closing fence, or
`none` when no closing fence exists (the unclosed-block error case). -/
def splitUntilFence : List Line → Option (List Line × List Line)
  | [] => none
  | l :: ls =>
    if isFenceLine l then some ([], ls)
    else
      match splitUntilFence ls with
      | none => none
      | some (a, b) => some (l :: a, b)

/-- A line that ends a plain-text paragraph (parser.go lines 143-151):
blank after trimming, or trimming to one of the recognized prefixes. -/
def stopLine (l : Line) : Bool :=
  let t := trimSpace l
  t == [] || "# ".toList.isPrefixOf t || "- ".toList.isPrefixOf t ||
    "> ".toList.isPrefixOf t || fenceMark.isPrefixOf t

/-- The continuation-collecting inner loop of the plain-text branch
(parser.go lines 141-154): the trimmed forms of the leading non-stop
lines, and the remaining lines. -/
def takeTextCont : List Line → List Line × List Line
  | [] => ([], [])
  | l :: rest =>
    if stopLine l then ([], l :: rest)
    else
      let r := takeTextCont rest
      (trimSpace l :: r.1, r.2)

/-- `parseContent` (parser.go lines 85-166) with the `parseCodeBlock`
helper (lines 170-207) inlined via `splitUntilFence`.  `pandoc` is the
external markdown-to-HTML converter (`processWithPandoc`): on success the
`code` element wraps the converter's root element, on failure it wraps
the raw code text.  `i` is the index of the first remaining line within
the lines given to `parseContent`, used only for the unclosed-code-block
error; `fuel` bounds the recursion and never runs out when it starts at
the number of lines, since every step consumes at least one line. -/
def parseContentAux (pandoc : Line → Option Node) :
    Nat → Nat → List Line → Except ParseErr (List Node)
  | 0, _, _ => .ok []
  | _ + 1, _, [] => .ok []
  | fuel + 1, i, line :: rest =>
    let t := trimSpace line
    if fenceMark.isPrefixOf t then
      match splitUntilFence rest with
      | none => .error (.unclosedCode (i + 1))
      | some (codeLines, rest') =>
        let codeContent := joinSep '\n' codeLines
        let codeNode :=
          match pandoc codeContent with
          | some html => Node.element "code" [] [html]
          | none => Node.element "code" [] [.charData (String.mk codeContent)]
        match parseContentAux pandoc fuel (i + codeLines.length + 2) rest' with
        | .ok ns => .ok (codeNode :: ns)
        | .error e => .error e
    else if "# ".toList.isPrefixOf t then
      match parseContentAux pandoc fuel (i + 1) rest with
      | .ok ns => .ok (Node.element "bold" [] [.charData (String.mk (t.drop 2))] :: ns)
      | .error e => .error e
    else if "- ".toList.isPrefixOf t then
      match parseContentAux pandoc fuel (i + 1) rest with
      | .ok ns => .ok (Node.element "item" [] [.charData (String.mk (t.drop 2))] :: ns)
      | .error e => .error e
    else if "> ".toList.isPrefixOf t then
      match fields (t.drop 2) with
      | [] => parseContentAux pandoc fuel (i + 1) rest
      | href :: restParts =>
        let txt := if restParts = [] then href else joinSep ' ' restParts
        match parseContentAux pandoc fuel (i + 1) rest with
        | .ok ns =>
          .ok (Node.element "link" [("href", String.mk href)]
            [.charData (String.mk txt)] :: ns)
        | .error e => .error e
    else if t = [] then
      parseContentAux pandoc fuel (i + 1) rest
    else
      let r := takeTextCont rest
      match parseContentAux pandoc fuel (i + 1 + r.1.length) r.2 with
      | .ok ns =>
        .ok (Node.element "text" [] [.charData (String.mk (joinSep '\n' (t :: r.1)))] :: ns)
      | .error e => .error e

/-- `parseContent` on its content lines (parser.go line 46 passes
`lines[2:]`, so indices here are body-relative). -/
def parseContent (pandoc : Line → Option Node) (lines : List Line) :
    Except ParseErr (List Node) :=
  parseContentAux pandoc lines.length 0 lines

/-- A single or double quote, the `['"]` character class of the metadata
regexes (parser.go lines 57, 64, 71). -/
def isQuoteChar (c : Char) : Bool := c == '\'' || c == '"'

/-- The title regex `title:\s*['"]([^'"]+)['"]` tried at the start of
this suffix: the literal `title:`, greedily consumed whitespace, a quote,
a non-empty maximal run of non-quote characters (the capture), and a
closing quote. -/
def matchTitleAt (s : Line) : Option Line :=
  if "title:".toList.isPrefixOf s then
    match (s.drop 6).dropWhile isSpaceChar with
    | [] => none
    | q :: s2 =>
      if isQuoteChar q then
        let run := s2.takeWhile fun c => !isQuoteChar c
        if run = [] then none
        else
          match s2.drop run.length with
          | [] => none
          | _ :: _ => some run
      else none
  else none

/-- Leftmost match of the title regex (`FindStringSubmatch`,
parser.go line 57). -/
def findTitleIn : Line → Option Line
  | [] => none
  | c :: rest =>
    match matchTitleAt (c :: rest) with
    | some r => some r
    | none => findTitleIn rest

/-- The tags regex `tags:\s*\[(.*?)\]` tried at the start of this suffix:
the literal `tags:`, whitespace, `[`, then the lazily captured characters
up to the first `]`, which must exist. -/
def matchTagsAt (s : Line) : Option Line :=
  if "tags:".toList.isPrefixOf s then
    match (s.drop 5).dropWhile isSpaceChar with
    | '[' :: s2 =>
      let grp := s2.takeWhile fun c => !(c == ']')
      if s2.drop grp.length = [] then none else some grp
    | _ => none
  else none

/-- Leftmost match of the tags regex (parser.go line 64). -/
def findTagsIn : Line → Option Line
  | [] => none
  | c :: rest =>
    match matchTagsAt (c :: rest) with
    | some r => some r
    | none => findTagsIn rest

/-- `FindAllStringSubmatch` of `['"]([^'"]+)['"]` over the captured tags
group (parser.go lines 71-79): the successive non-overlapping quoted
non-empty runs.  `fuel` starting at the length of the line suffices
because every step drops at least one character. -/
def extractQuoted : Nat → Line → List Line
  | 0, _ => []
  | _ + 1, [] => []
  | fuel + 1, c :: rest =>
    if isQuoteChar c then
      let run := rest.takeWhile fun d => !isQuoteChar d
      match rest.drop run.length with
      | [] => extractQuoted fuel rest
      | _ :: rest2 =>
        if run = [] then extractQuoted fuel rest
        else run :: extractQuoted fuel rest2
    else extractQuoted fuel rest

/-- `parseMetadata` (parser.go lines 55-82): the captured title and the
quoted tag labels, or the corresponding hard error. -/
def parseMetadata (titleLine tagsLine : Line) : Except ParseErr (Line × List Line) :=
  match findTitleIn titleLine with
  | none => .error .badTitleFormat
  | some title =>
    match findTagsIn tagsLine with
    | none => .error .badTagsFormat
    | some grp => .ok (title, extractQuoted grp.length grp)

/-- `ParseCustomSyntax` (parser.go lines 14-52): at least two lines,
metadata from the first two, then the body parsed from the remaining
lines (note: line indices inside `parseContent` restart at the third
file line); the result is the `document` tree with `meta` (title and tag
elements) and `body`. -/
def parseCustomSyntax (pandoc : Line → Option Node) (lines : List Line) :
    Except ParseErr Node :=
  match lines with
  | [] => .error .tooFewLines
  | [_] => .error .tooFewLines
  | l0 :: l1 :: rest =>
    match parseMetadata l0 l1 with
    | .error e => .error e
    | .ok (title, tagLabels) =>
      match parseContent pandoc rest with
      | .error e => .error e
      | .ok bodyNodes =>
        .ok (.element "document" []
          [.element "meta" []
            (.element "title" [("value", String.mk title)] [] ::
              tagLabels.map fun lb => Node.element "tag" [("label", String.mk lb)] []),
           .element "body" [] bodyNodes])

/-- A minimal post with the given id, used in concrete instances. -/
def keyedPost (k : Nat) : Post := ⟨"p", "T", k, .charData "", []⟩

/-- Concrete posts in discovery order for the read-only-source claim. -/
def discoveryPostA : Post := ⟨"a.md", "A", 1, .charData "", []⟩

/-- Second concrete post in discovery order. -/
def discoveryPostB : Post := ⟨"b.md", "B", 2, .charData "", []⟩

/-- A concrete parsed body with an allowed element, a disallowed
`script` element, and a raw text node. -/
def exampleBody : Node :=
  .element "body" []
    [.element "bold" [] [.charData "T"],
     .element "script" [("src", "x.js")] [.charData "evil"],
     .charData "W"]

/-- A concrete parsed post document wrapping `exampleBody`. -/
def exampleRoot : Node :=
  .element "document" []
    [.element "meta" [] [.element "title" [("value", "T")] []],
     exampleBody]

/-- A fresh value is not found by the `AssureKey` scan. -/
theorem find?_eq_none_of_fresh (keys : List Key) (value : String)
    (h : ∀ k ∈ keys, k.value ≠ value) :
    keys.find? (fun key => key.value == value) = none := by
  rw [List.find?_eq_none]
  intro k hk
  simpa using h k hk

/-- C1: for every registry state and every key, a second `AssureKey` call
with the same key returns the same id as the first and leaves the
registry exactly as the first call left it (no growth, no reordering). -/
theorem assureKey_idempotent (keylock : Keylock) (value : String) :
    (assureKey (assureKey keylock value).2 value).1 = (assureKey keylock value).1 ∧
    (assureKey (assureKey keylock value).2 value).2 = (assureKey keylock value).2 := by
  cases h : keylock.keys.find? (fun key => key.value == value) with
  | some k =>
    constructor <;> simp [assureKey, h]
  | none =>
    have h2 : (keylock.keys ++ ([⟨keylock.keys.length + 1, value⟩] : List Key)).find?
        (fun key => key.value == value) = some ⟨keylock.keys.length + 1, value⟩ := by
      rw [List.find?_append, h]
      simp
    constructor <;> simp [assureKey, h, h2]

/-- First-time `AssureKey` calls with pairwise-distinct fresh keys mint
`len+1, len+2, ...` and grow the registry by one entry per call. -/
theorem assureAll_fresh (vs : List String) :
    ∀ keylock : Keylock, vs.Nodup → (∀ v ∈ vs, ∀ k ∈ keylock.keys, k.value ≠ v) →
      (assureAll keylock vs).1 = List.range' (keylock.keys.length + 1) vs.length ∧
      (assureAll keylock vs).2.keys.length = keylock.keys.length + vs.length := by
  induction vs with
  | nil => intro keylock _ _; exact ⟨rfl, rfl⟩
  | cons v vs ih =>
    intro keylock hnd hfresh
    have hfind : keylock.keys.find? (fun key => key.value == v) = none :=
      find?_eq_none_of_fresh _ _ (hfresh v (List.mem_cons_self v vs))
    have hstep : assureKey keylock v =
        (keylock.keys.length + 1, ⟨keylock.keys ++ [⟨keylock.keys.length + 1, v⟩]⟩) := by
      simp [assureKey, hfind]
    have hnd' : vs.Nodup := (List.nodup_cons.mp hnd).2
    have hvnotin : v ∉ vs := (List.nodup_cons.mp hnd).1
    have hfresh' : ∀ u ∈ vs, ∀ k ∈ (keylock.keys ++ [⟨keylock.keys.length + 1, v⟩]), k.value ≠ u := by
      intro u hu k hk
      rcases List.mem_append.mp hk with hk | hk
      · exact hfresh u (List.mem_cons_of_mem v hu) k hk
      · rcases List.mem_singleton.mp hk with rfl
        show v ≠ u
        intro h
        exact hvnotin (h.symm ▸ hu)
    obtain ⟨ih1, ih2⟩ := ih ⟨keylock.keys ++ [⟨keylock.keys.length + 1, v⟩]⟩ hnd' hfresh'
    constructor
    · show (assureAll keylock (v :: vs)).1 = _
      rw [List.length_cons, List.range'_succ]
      simp only [assureAll, hstep]
      rw [ih1]
      simp [Nat.add_comm, Nat.add_assoc, Nat.add_left_comm]
    · show (assureAll keylock (v :: vs)).2.keys.length = _
      simp only [assureAll, hstep]
      rw [ih2]
      simp
      omega

/-- C2: starting from the empty registry, successive first-time
`AssureKey` calls (pairwise-distinct keys) return exactly the ids
`1, 2, ..., n`, which are pairwise distinct. -/
theorem assureAll_ids_sequential (keys : List String) (h : keys.Nodup) :
    (assureAll ⟨[]⟩ keys).1 = List.range' 1 keys.length ∧
    (assureAll ⟨[]⟩ keys).1.Nodup := by
  obtain ⟨h1, _⟩ := assureAll_fresh keys ⟨[]⟩ h (by intro v _ k hk; cases hk)
  refine ⟨h1, ?_⟩
  rw [h1]
  exact List.nodup_range' 1 keys.length

/-- Witness for the sequential-ids theorem at the keys `a`, `b`, `c`. -/
theorem assureAll_ids_sequential_witness :
    (["a", "b", "c"] : List String).Nodup ∧
    (assureAll ⟨[]⟩ ["a", "b", "c"]).1 = List.range' 1 3 ∧
    (assureAll ⟨[]⟩ ["a", "b", "c"]).1.Nodup :=
  ⟨by decide, assureAll_ids_sequential ["a", "b", "c"] (by decide)⟩

/-- A decimal digit character produced by `Nat.digitChar`. -/
theorem digitChar_decimal : ∀ m : Nat, m < 10 →
    isDigitChar (Nat.digitChar m) = true ∧ digitVal (Nat.digitChar m) = m := by
  decide

/-- `Nat.toDigitsCore` at base 10, with enough fuel, prepends a non-empty
all-digit sequence whose decimal value is the input. -/
theorem toDigitsCore_decimal :
    ∀ fuel n : Nat, ∀ ds : List Char, 0 < fuel → n < 10 ^ fuel →
      ∃ cs : List Char, Nat.toDigitsCore 10 fuel n ds = cs ++ ds ∧ cs ≠ [] ∧
        (∀ c ∈ cs, isDigitChar c = true) ∧
        ∀ a : Nat, List.foldl decStep a cs = a * 10 ^ cs.length + n := by
  intro fuel
  induction fuel with
  | zero => intro n ds h; exact absurd h (Nat.lt_irrefl 0)
  | succ fuel ih =>
    intro n ds _ hlt
    by_cases h10 : n / 10 = 0
    · have hn : n < 10 := by
        have := (Nat.div_eq_zero_iff (by norm_num)).mp h10
        omega
      refine ⟨[Nat.digitChar (n % 10)], ?_, by simp, ?_, ?_⟩
      · simp [Nat.toDigitsCore, h10]
      · intro c hc
        rcases List.mem_singleton.mp hc with rfl
        exact (digitChar_decimal (n % 10) (Nat.mod_lt n (by norm_num))).1
      · intro a
        have hmod : n % 10 = n := Nat.mod_eq_of_lt hn
        simp only [List.foldl, List.length_singleton, pow_one, decStep, hmod,
          (digitChar_decimal n hn).2]
        omega
    · have hge : 10 ≤ n := by
        rcases Nat.lt_or_ge n 10 with h | h
        · exact absurd (Nat.div_eq_of_lt h) h10
        · exact h
      have hfuel : 0 < fuel := by
        rcases Nat.eq_zero_or_pos fuel with rfl | h
        · simp at hlt; omega
        · exact h
      have hlt' : n / 10 < 10 ^ fuel := by
        rw [Nat.div_lt_iff_lt_mul (by norm_num)]
        calc n < 10 ^ (fuel + 1) := hlt
        _ = 10 ^ fuel * 10 := by rw [Nat.pow_succ]
      obtain ⟨cs, heq, hne, hdig, hfold⟩ := ih (n / 10) (Nat.digitChar (n % 10) :: ds) hfuel hlt'
      refine ⟨cs ++ [Nat.digitChar (n % 10)], ?_, by simp, ?_, ?_⟩
      · have : Nat.toDigitsCore 10 (fuel + 1) n ds =
            Nat.toDigitsCore 10 fuel (n / 10) (Nat.digitChar (n % 10) :: ds) := by
          simp [Nat.toDigitsCore, h10]
        rw [this, heq, List.append_assoc, List.singleton_append]
      · intro c hc
        rcases List.mem_append.mp hc with hc | hc
        · exact hdig c hc
        · rcases List.mem_singleton.mp hc with rfl
          exact (digitChar_decimal (n % 10) (Nat.mod_lt n (by omega))).1
      · intro a
        rw [List.foldl_append, hfold a]
        have hdm := Nat.div_add_mod n 10
        simp only [List.foldl, decStep,
          (digitChar_decimal (n % 10) (Nat.mod_lt n (by omega))).2]
        rw [List.length_append, List.length_singleton, Nat.pow_succ]
        calc 10 * (a * 10 ^ cs.length + n / 10) + n % 10
            = a * (10 ^ cs.length * 10) + (10 * (n / 10) + n % 10) := by ring
        _ = a * (10 ^ cs.length * 10) + n := by rw [hdm]

/-- `strconv.Atoi` inverts `strconv.Itoa` on every natural id. -/
theorem atoi_itoa (n : Nat) : atoi (itoa n) = some n := by
  have hbound : n < 10 ^ (n + 1) := by
    calc n < 2 ^ n := Nat.lt_two_pow n
    _ ≤ 10 ^ n := Nat.pow_le_pow_left (by norm_num) n
    _ ≤ 10 ^ (n + 1) := Nat.pow_le_pow_right (by norm_num) (Nat.le_succ n)
  obtain ⟨cs, heq, hne, hdig, hfold⟩ :=
    toDigitsCore_decimal (n + 1) n [] (Nat.succ_pos n) hbound
  have hitoa : itoa n = cs := by
    rw [itoa, Nat.toDigits, heq, List.append_nil]
  rw [hitoa, atoi, if_pos ⟨hne, List.all_eq_true.mpr hdig⟩, hfold 0]
  simp

/-- Saving and reloading reproduces the registry exactly: same entries,
same ids, same order. -/
theorem loadKeylock_saveEntries (keylock : Keylock) :
    loadKeylock (saveEntries keylock) = some keylock := by
  obtain ⟨keys⟩ := keylock
  induction keys with
  | nil => rfl
  | cons k ks ih =>
    show loadKeylock ((itoa k.id, k.value) :: saveEntries ⟨ks⟩) = some ⟨k :: ks⟩
    rw [loadKeylock, atoi_itoa, ih]

/-- C3: a `Save`/`GetKeylock` round trip yields a registry with the same
entries (ids, values, order), so `AssureKey` returns the same id for
every key after the reload as before it. -/
theorem save_load_stable (keylock : Keylock) (value : String) :
    ∃ keylock', loadKeylock (saveEntries keylock) = some keylock' ∧
      keylock' = keylock ∧
      (assureKey keylock' value).1 = (assureKey keylock value).1 :=
  ⟨keylock, loadKeylock_saveEntries keylock, rfl, rfl⟩

/-- Every digit below 16 renders as a lowercase hexadecimal character. -/
theorem digitChar_mem_hexChars : ∀ m : Nat, m < 16 → Nat.digitChar m ∈ hexChars := by
  decide

/-- `Nat.toDigitsCore` at base 16 produces at most `k` digits for inputs
below `16 ^ k`. -/
theorem toDigitsCore_hex_length :
    ∀ fuel n k : Nat, ∀ ds : List Char, n < 16 ^ k → 0 < k →
      (Nat.toDigitsCore 16 fuel n ds).length ≤ k + ds.length := by
  intro fuel
  induction fuel with
  | zero =>
    intro n k ds _ _
    simp [Nat.toDigitsCore]
  | succ fuel ih =>
    intro n k ds hlt hk
    by_cases h16 : n / 16 = 0
    · have : Nat.toDigitsCore 16 (fuel + 1) n ds = Nat.digitChar (n % 16) :: ds := by
        simp [Nat.toDigitsCore, h16]
      rw [this]
      simp only [List.length_cons]
      omega
    · have hge : 16 ≤ n := by
        rcases Nat.lt_or_ge n 16 with h | h
        · exact absurd (Nat.div_eq_of_lt h) h16
        · exact h
      obtain ⟨k', rfl⟩ : ∃ k', k = k' + 1 := ⟨k - 1, by omega⟩
      have hk' : 0 < k' := by
        rcases Nat.eq_zero_or_pos k' with rfl | h
        · simp at hlt; omega
        · exact h
      have hlt' : n / 16 < 16 ^ k' := by
        rw [Nat.div_lt_iff_lt_mul (by norm_num)]
        calc n < 16 ^ (k' + 1) := hlt
        _ = 16 ^ k' * 16 := by rw [Nat.pow_succ]
      have : Nat.toDigitsCore 16 (fuel + 1) n ds =
          Nat.toDigitsCore 16 fuel (n / 16) (Nat.digitChar (n % 16) :: ds) := by
        simp [Nat.toDigitsCore, h16]
      rw [this]
      have := ih (n / 16) k' (Nat.digitChar (n % 16) :: ds) hlt' hk'
      simpa [Nat.add_comm, Nat.add_left_comm, Nat.add_assoc] using this

/-- Every character `Nat.toDigitsCore` at base 16 adds is a lowercase
hexadecimal digit. -/
theorem toDigitsCore_hex_mem :
    ∀ fuel n : Nat, ∀ ds : List Char, (∀ c ∈ ds, c ∈ hexChars) →
      ∀ c ∈ Nat.toDigitsCore 16 fuel n ds, c ∈ hexChars := by
  intro fuel
  induction fuel with
  | zero =>
    intro n ds hds
    simpa [Nat.toDigitsCore] using hds
  | succ fuel ih =>
    intro n ds hds c hc
    have hd : Nat.digitChar (n % 16) ∈ hexChars :=
      digitChar_mem_hexChars (n % 16) (Nat.mod_lt n (by norm_num))
    by_cases h16 : n / 16 = 0
    · rw [show Nat.toDigitsCore 16 (fuel + 1) n ds = Nat.digitChar (n % 16) :: ds by
        simp [Nat.toDigitsCore, h16]] at hc
      rcases List.mem_cons.mp hc with rfl | hc
      · exact hd
      · exact hds c hc
    · rw [show Nat.toDigitsCore 16 (fuel + 1) n ds =
          Nat.toDigitsCore 16 fuel (n / 16) (Nat.digitChar (n % 16) :: ds) by
        simp [Nat.toDigitsCore, h16]] at hc
      refine ih (n / 16) (Nat.digitChar (n % 16) :: ds) ?_ c hc
      intro c' hc'
      rcases List.mem_cons.mp hc' with rfl | hc'
      · exact hd
      · exact hds c' hc'

/-- C5: for every id between 1 and 65535, `KeyIDToHex` renders `0x`
followed by exactly 4 lowercase zero-padded hexadecimal digits; in
particular 1, 255 and 65535 render as `0x0001`, `0x00ff` and `0xffff`. -/
theorem keyIDToHex_format :
    (∀ id : Nat, 1 ≤ id → id ≤ 65535 →
      ∃ ds : List Char, KeyIDToHex id = String.mk ('0' :: 'x' :: ds) ∧
        ds.length = 4 ∧ ∀ c ∈ ds, c ∈ hexChars) ∧
    KeyIDToHex 1 = "0x0001" ∧ KeyIDToHex 255 = "0x00ff" ∧ KeyIDToHex 65535 = "0xffff" := by
  refine ⟨?_, by decide, by decide, by decide⟩
  intro id _ h2
  have hlen : (Nat.toDigits 16 id).length ≤ 4 := by
    have h := toDigitsCore_hex_length (id + 1) id 4 []
      (by norm_num; omega) (by norm_num)
    simpa [Nat.toDigits] using h
  refine ⟨List.replicate (4 - (Nat.toDigits 16 id).length) '0' ++ Nat.toDigits 16 id,
    rfl, ?_, ?_⟩
  · simp only [List.length_append, List.length_replicate]
    omega
  · intro c hc
    rcases List.mem_append.mp hc with hc | hc
    · rw [List.eq_of_mem_replicate hc]
      decide
    · exact toDigitsCore_hex_mem (id + 1) id [] (by simp) c hc

/-- Witness for the address-format theorem at id 255. -/
theorem keyIDToHex_format_witness :
    (1 ≤ 255 ∧ 255 ≤ 65535) ∧
    ∃ ds : List Char, KeyIDToHex 255 = String.mk ('0' :: 'x' :: ds) ∧
      ds.length = 4 ∧ ∀ c ∈ ds, c ∈ hexChars :=
  ⟨by decide, keyIDToHex_format.1 255 (by decide) (by decide)⟩

/-- The tag scan finds nothing exactly when no tag carries the label. -/
theorem assureInTags_eq_none (tags : List Tag) (label : String) (document : Nat)
    (h : assureInTags tags label document = none) :
    ∀ t ∈ tags, t.label ≠ label := by
  induction tags with
  | nil => intro t ht; cases ht
  | cons t ts ih =>
    intro t' ht'
    by_cases hl : t.label = label
    · rw [assureInTags, if_pos hl] at h
      by_cases hm : document ∈ t.mentions
      · rw [if_pos hm] at h; cases h
      · rw [if_neg hm] at h; cases h
    · rw [assureInTags, if_neg hl] at h
      rcases List.mem_cons.mp ht' with rfl | ht'
      · exact hl
      · cases hrec : assureInTags ts label document with
        | none => exact ih hrec t' ht'
        | some r => rw [hrec] at h; cases h

/-- A successful tag scan is idempotent: running it again on the updated
tag list returns the same key and changes nothing. -/
theorem assureInTags_idem (tags : List Tag) (label : String) (document : Nat)
    (k : Nat) (tags' : List Tag) (h : assureInTags tags label document = some (k, tags')) :
    assureInTags tags' label document = some (k, tags') := by
  induction tags generalizing tags' with
  | nil => cases h
  | cons t ts ih =>
    by_cases hl : t.label = label
    · rw [assureInTags, if_pos hl] at h
      by_cases hm : document ∈ t.mentions
      · rw [if_pos hm] at h
        simp only [Option.some.injEq, Prod.mk.injEq] at h
        obtain ⟨rfl, rfl⟩ := h
        rw [assureInTags, if_pos hl, if_pos hm]
      · rw [if_neg hm] at h
        simp only [Option.some.injEq, Prod.mk.injEq] at h
        obtain ⟨rfl, rfl⟩ := h
        have hl' : ({ t with mentions := t.mentions ++ [document] } : Tag).label = label := hl
        have hm' : document ∈ ({ t with mentions := t.mentions ++ [document] } : Tag).mentions := by
          simp
        rw [assureInTags, if_pos hl', if_pos hm']
    · rw [assureInTags, if_neg hl] at h
      cases hrec : assureInTags ts label document with
      | none => rw [hrec] at h; cases h
      | some r =>
        rw [hrec] at h
        simp only [Option.some.injEq, Prod.mk.injEq] at h
        obtain ⟨rfl, rfl⟩ := h
        have := ih r.2 (by rw [hrec])
        rw [assureInTags, if_neg hl, this]

/-- After a successful scan the first tag with the label records the
mention exactly once (given the no-duplicate-mentions invariant). -/
theorem assureInTags_count (tags : List Tag) (label : String) (document : Nat)
    (hwf : ∀ t ∈ tags, t.mentions.Nodup)
    (k : Nat) (tags' : List Tag) (h : assureInTags tags label document = some (k, tags')) :
    ∃ t₀, tags'.find? (fun t => t.label == label) = some t₀ ∧
      t₀.mentions.count document = 1 ∧ t₀.key = k := by
  induction tags generalizing tags' with
  | nil => cases h
  | cons t ts ih =>
    by_cases hl : t.label = label
    · rw [assureInTags, if_pos hl] at h
      by_cases hm : document ∈ t.mentions
      · rw [if_pos hm] at h
        simp only [Option.some.injEq, Prod.mk.injEq] at h
        obtain ⟨rfl, rfl⟩ := h
        refine ⟨t, ?_, ?_, rfl⟩
        · rw [List.find?_cons_of_pos _ (by simpa using hl)]
        · exact List.count_eq_one_of_mem (hwf t (List.mem_cons_self t ts)) hm
      · rw [if_neg hm] at h
        simp only [Option.some.injEq, Prod.mk.injEq] at h
        obtain ⟨rfl, rfl⟩ := h
        refine ⟨{ t with mentions := t.mentions ++ [document] }, ?_, ?_, rfl⟩
        · rw [List.find?_cons_of_pos _ (by simpa using hl)]
        · rw [List.count_append, List.count_eq_zero_of_not_mem hm]
          simp
    · rw [assureInTags, if_neg hl] at h
      cases hrec : assureInTags ts label document with
      | none => rw [hrec] at h; cases h
      | some r =>
        rw [hrec] at h
        simp only [Option.some.injEq, Prod.mk.injEq] at h
        obtain ⟨rfl, rfl⟩ := h
        obtain ⟨t₀, hfind, hcount, hkey⟩ :=
          ih (fun u hu => hwf u (List.mem_cons_of_mem t hu)) r.2 (by rw [hrec])
        refine ⟨t₀, ?_, hcount, hkey⟩
        rw [List.find?_cons_of_neg _ (by simpa using hl), hfind]

/-- Scanning a label-free prefix prepends it unchanged. -/
theorem assureInTags_append_fresh (pre tags : List Tag) (label : String) (document : Nat)
    (hpre : ∀ t ∈ pre, t.label ≠ label) :
    assureInTags (pre ++ tags) label document =
      (assureInTags tags label document).map fun r => (r.1, pre ++ r.2) := by
  induction pre with
  | nil =>
    rw [List.nil_append]
    cases assureInTags tags label document <;> rfl
  | cons t pre ih =>
    have hl : t.label ≠ label := hpre t (List.mem_cons_self t pre)
    rw [List.cons_append, assureInTags, if_neg hl,
      ih fun u hu => hpre u (List.mem_cons_of_mem t hu)]
    cases assureInTags tags label document <;> rfl

/-- C4: a second `AssureLabelFromDocument` call with the same label and
post returns the same tag id and leaves the taxonomy exactly as the
first call left it, and after the calls the tag carrying that label
mentions the post exactly once (assuming mentions were duplicate-free,
the invariant the operation maintains from the empty taxonomy). -/
theorem assureLabel_idempotent (taxonomy : Taxonomy) (label : String) (document : Nat)
    (hwf : WFMentions taxonomy) :
    (assureLabelFromDocument (assureLabelFromDocument taxonomy label document).2
        label document).1 = (assureLabelFromDocument taxonomy label document).1 ∧
    (assureLabelFromDocument (assureLabelFromDocument taxonomy label document).2
        label document).2 = (assureLabelFromDocument taxonomy label document).2 ∧
    ∃ t₀, (assureLabelFromDocument taxonomy label document).2.tags.find?
        (fun t => t.label == label) = some t₀ ∧
      t₀.mentions.count document = 1 ∧
      t₀.key = (assureLabelFromDocument taxonomy label document).1 := by
  cases h : assureInTags taxonomy.tags label document with
  | some r =>
    obtain ⟨k, ts⟩ := r
    have hidem := assureInTags_idem taxonomy.tags label document k ts h
    have hfst : assureLabelFromDocument taxonomy label document =
        (k, { taxonomy with tags := ts }) := by
      simp only [assureLabelFromDocument, h]
    have hsnd : assureLabelFromDocument { taxonomy with tags := ts } label document =
        (k, { taxonomy with tags := ts }) := by
      simp only [assureLabelFromDocument, hidem]
    obtain ⟨t₀, hfind, hcount, hkey⟩ :=
      assureInTags_count taxonomy.tags label document hwf k ts h
    refine ⟨?_, ?_, ?_⟩
    · rw [hfst]
      show (assureLabelFromDocument { taxonomy with tags := ts } label document).1 = k
      rw [hsnd]
    · rw [hfst]
      show (assureLabelFromDocument { taxonomy with tags := ts } label document).2 = _
      rw [hsnd]
    · rw [hfst]
      exact ⟨t₀, hfind, hcount, hkey⟩
  | none =>
    have hfresh := assureInTags_eq_none taxonomy.tags label document h
    set k₀ := (assureKey taxonomy.keylock ("TAG:" ++ label)).1 with hk₀
    set kl₀ := (assureKey taxonomy.keylock ("TAG:" ++ label)).2 with hkl₀
    have hfst : assureLabelFromDocument taxonomy label document =
        (k₀, ⟨kl₀, taxonomy.tags ++ [⟨label, k₀, [document]⟩]⟩) := by
      simp only [assureLabelFromDocument, h]
    have hscan2 : assureInTags (taxonomy.tags ++ [⟨label, k₀, [document]⟩]) label document =
        some (k₀, taxonomy.tags ++ [⟨label, k₀, [document]⟩]) := by
      rw [assureInTags_append_fresh taxonomy.tags _ label document hfresh]
      rw [show assureInTags [⟨label, k₀, [document]⟩] label document =
          some (k₀, [⟨label, k₀, [document]⟩]) by
        rw [assureInTags, if_pos rfl, if_pos (List.mem_singleton.mpr rfl)]]
      rfl
    have hsnd : assureLabelFromDocument
        ⟨kl₀, taxonomy.tags ++ [⟨label, k₀, [document]⟩]⟩ label document =
        (k₀, ⟨kl₀, taxonomy.tags ++ [⟨label, k₀, [document]⟩]⟩) := by
      simp only [assureLabelFromDocument, hscan2]
    have hfind : (taxonomy.tags ++ ([⟨label, k₀, [document]⟩] : List Tag)).find?
        (fun t => t.label == label) = some (⟨label, k₀, [document]⟩ : Tag) := by
      rw [List.find?_append,
        List.find?_eq_none.mpr (by intro t ht; simpa using hfresh t ht)]
      simp
    refine ⟨?_, ?_, ?_⟩
    · rw [hfst]
      show (assureLabelFromDocument
        ⟨kl₀, taxonomy.tags ++ [⟨label, k₀, [document]⟩]⟩ label document).1 = k₀
      rw [hsnd]
    · rw [hfst]
      show (assureLabelFromDocument
        ⟨kl₀, taxonomy.tags ++ [⟨label, k₀, [document]⟩]⟩ label document).2 = _
      rw [hsnd]
    · rw [hfst]
      exact ⟨⟨label, k₀, [document]⟩, hfind, by simp, rfl⟩

/-- Witness for the tag-mention idempotence theorem: empty taxonomy,
label `go`, post 7. -/
theorem assureLabel_idempotent_witness :
    WFMentions ⟨⟨[]⟩, []⟩ ∧
    ((assureLabelFromDocument (assureLabelFromDocument ⟨⟨[]⟩, []⟩ "go" 7).2 "go" 7).1 =
        (assureLabelFromDocument ⟨⟨[]⟩, []⟩ "go" 7).1 ∧
      (assureLabelFromDocument (assureLabelFromDocument ⟨⟨[]⟩, []⟩ "go" 7).2 "go" 7).2 =
        (assureLabelFromDocument ⟨⟨[]⟩, []⟩ "go" 7).2 ∧
      ∃ t₀, (assureLabelFromDocument ⟨⟨[]⟩, []⟩ "go" 7).2.tags.find?
          (fun t => t.label == "go") = some t₀ ∧
        t₀.mentions.count 7 = 1 ∧
        t₀.key = (assureLabelFromDocument ⟨⟨[]⟩, []⟩ "go" 7).1) :=
  ⟨fun t ht => absurd ht (List.not_mem_nil t),
    assureLabel_idempotent ⟨⟨[]⟩, []⟩ "go" 7 (fun t ht => absurd ht (List.not_mem_nil t))⟩

/-- C6: the home page body is the post links in descending-id order,
the blank separator, then the tag links in descending-id order; posts
with ids 3, 1, 2 are listed as 3, 2, 1. -/
theorem homeCatalog_descending :
    (∀ (source : Source) (taxonomy : Taxonomy),
      ∃ ps ts,
        buildHomeCatalogBody source taxonomy =
          ps.map postLink ++ sepNode :: ts.map tagLink ∧
        ps.Perm source.posts ∧ ts.Perm taxonomy.tags ∧
        List.Sorted postDesc ps ∧ List.Sorted tagDesc ts) ∧
    buildHomeCatalogBody ⟨[keyedPost 3, keyedPost 1, keyedPost 2]⟩ ⟨⟨[]⟩, []⟩ =
      [postLink (keyedPost 3), postLink (keyedPost 2), postLink (keyedPost 1), sepNode] := by
  constructor
  · intro source taxonomy
    exact ⟨sortedPosts source, sortedTags taxonomy, rfl,
      List.perm_insertionSort postDesc source.posts,
      List.perm_insertionSort tagDesc taxonomy.tags,
      List.sorted_insertionSort postDesc source.posts,
      List.sorted_insertionSort tagDesc taxonomy.tags⟩
  · rfl

/-- C7 counterexample: `Build` does not leave the Source's post sequence
in discovery order; posts discovered with ids 1 then 2 come back from the
build in the order 2 then 1, because the home-catalog sort reorders the
shared slice in place. -/
theorem build_mutates_source_order :
    ((buildInMemoryEffect ⟨[discoveryPostA, discoveryPostB]⟩ ⟨⟨[]⟩, []⟩).1.posts).map Post.key
      = [2, 1] ∧
    [discoveryPostA, discoveryPostB].map Post.key = [1, 2] ∧
    ((buildInMemoryEffect ⟨[discoveryPostA, discoveryPostB]⟩ ⟨⟨[]⟩, []⟩).1.posts).map Post.key ≠
      [discoveryPostA, discoveryPostB].map Post.key :=
  ⟨rfl, rfl, by decide⟩

/-- C7 amended: `Build` touches no field of any Post and keeps the
multiset of posts (and tags) intact, but it does reorder the Source's
post sequence — after the build the shared slice is in descending-id
order, not discovery order (likewise the Taxonomy's tag list; the
registry reference is untouched). -/
theorem build_preserves_posts_up_to_sort (source : Source) (taxonomy : Taxonomy) :
    ((buildInMemoryEffect source taxonomy).1.posts).Perm source.posts ∧
    List.Sorted postDesc (buildInMemoryEffect source taxonomy).1.posts ∧
    ((buildInMemoryEffect source taxonomy).2.tags).Perm taxonomy.tags ∧
    (buildInMemoryEffect source taxonomy).2.keylock = taxonomy.keylock ∧
    List.Sorted tagDesc (buildInMemoryEffect source taxonomy).2.tags :=
  ⟨List.perm_insertionSort postDesc source.posts,
    List.sorted_insertionSort postDesc source.posts,
    List.perm_insertionSort tagDesc taxonomy.tags, rfl,
    List.sorted_insertionSort tagDesc taxonomy.tags⟩

/-- The deep copy of `copyElementChildren` reproduces every node of the
canonical model exactly. -/
theorem copyNode_id : ∀ n : Node, copyNode n = n := by
  have H : ∀ k : Nat, ∀ n : Node, sizeOf n ≤ k → copyNode n = n := by
    intro k
    induction k with
    | zero =>
      intro n h
      cases n <;> simp [Node.element.sizeOf_spec, Node.charData.sizeOf_spec] at h
    | succ k ih =>
      intro n h
      cases n with
      | charData s => simp [copyNode]
      | element t a cs =>
        rw [copyNode]
        have hmem : ∀ c ∈ cs, copyNode c = c := by
          intro c hc
          refine ih c ?_
          have h1 := List.sizeOf_lt_of_mem hc
          simp only [Node.element.sizeOf_spec] at h
          omega
        have : cs.attach.map (fun c => copyNode c.1) = cs.attach.map Subtype.val :=
          List.map_congr_left fun c _ => hmem c.1 c.2
        rw [this, List.attach_map_subtype_val]
  exact fun n => H (sizeOf n) n (Nat.le_refl _)

/-- The whitelist loop is exactly an order-preserving filter: allowed
elements and text tokens survive unchanged, everything else is dropped. -/
theorem copyAllowedChildren_eq_filter (children : List Node) :
    copyAllowedChildren children = children.filter keepNode := by
  induction children with
  | nil => rfl
  | cons c cs ih =>
    simp only [copyAllowedChildren, copyNode_id, Node.childrenOf] at ih
    cases c with
    | element t a cs' =>
      by_cases ht : allowedTag t <;>
        simp [copyAllowedChildren, List.filterMap_cons, List.filter_cons, keepNode, ht,
          copyNode_id, Node.childrenOf, ih]
    | charData s =>
      simp [copyAllowedChildren, List.filterMap_cons, List.filter_cons, keepNode,
        copyNode_id, Node.childrenOf, ih]

/-- Every node the title step emits is a `bold` element. -/
theorem titleBold_shape (m : Option Node) (n : Node) (h : n ∈ titleBold m) :
    ∃ s, n = .element "bold" [] [.charData s] := by
  cases m with
  | none => cases h
  | some mm =>
    simp only [titleBold] at h
    cases hsel : selectElement mm "title" with
    | none => simp only [hsel] at h; cases h
    | some titleElem =>
      simp only [hsel] at h
      by_cases hv : selectAttrValue titleElem "value" "" == ""
      · rw [if_pos hv] at h; cases h
      · rw [if_neg hv] at h
        rcases List.mem_singleton.mp h with rfl
        exact ⟨_, rfl⟩

/-- Every node the tag-link step emits is a `link` element. -/
theorem metaTagLinks_shape (m : Option Node) (taxonomy : Taxonomy) (n : Node)
    (h : n ∈ metaTagLinks m taxonomy) :
    ∃ attrs children, n = .element "link" attrs children := by
  cases m with
  | none => cases h
  | some mm =>
    simp only [metaTagLinks] at h
    rcases List.mem_filterMap.mp h with ⟨te, _, hf⟩
    by_cases h1 : selectAttrValue te "label" "" == ""
    · rw [if_pos h1] at hf; cases hf
    · rw [if_neg h1] at hf
      by_cases h2 : tagKeyFor taxonomy (selectAttrValue te "label" "") > 0
      · rw [if_pos h2] at hf
        rcases Option.some.inj hf with rfl
        exact ⟨_, _, rfl⟩
      · rw [if_neg h2] at hf; cases hf

/-- C8: with a parsed body present, the rendered post body is the title
and tag-link prefix followed by an order-preserving copy of exactly the
whitelisted children (allowed elements and raw text); no element with a
tag outside the whitelist occurs anywhere in the output, and no error is
possible (the rendering is total). -/
theorem buildPost_whitelist (root : Node) (taxonomy : Taxonomy) (bodyElem : Node)
    (h : bodyOf root = some bodyElem) :
    ∃ ns, buildPostBody root taxonomy = some ns ∧
      ns = titleBold (metaOf root) ++ metaTagLinks (metaOf root) taxonomy ++
        bodyElem.childrenOf.filter keepNode ∧
      ∀ (t : String) (a : List (String × String)) (cs : List Node),
        allowedTag t = false → Node.element t a cs ∉ ns := by
  refine ⟨titleBold (metaOf root) ++ metaTagLinks (metaOf root) taxonomy ++
    bodyElem.childrenOf.filter keepNode, ?_, rfl, ?_⟩
  · simp only [buildPostBody, h, copyAllowedChildren_eq_filter]
  · intro t a cs hdis hmem
    rcases List.mem_append.mp hmem with hmem | hmem
    · rcases List.mem_append.mp hmem with hmem | hmem
      · obtain ⟨s, hs⟩ := titleBold_shape (metaOf root) _ hmem
        injection hs with ht _ _
        rw [ht] at hdis
        exact absurd hdis (by decide)
      · obtain ⟨attrs, children, hs⟩ := metaTagLinks_shape (metaOf root) taxonomy _ hmem
        injection hs with ht _ _
        rw [ht] at hdis
        exact absurd hdis (by decide)
    · have := (List.mem_filter.mp hmem).2
      rw [keepNode] at this
      rw [hdis] at this
      cases this

/-- Witness for the whitelist theorem: a concrete post document whose
body holds a `bold` element, a disallowed `script` element and raw
text. -/
theorem buildPost_whitelist_witness :
    bodyOf exampleRoot = some exampleBody ∧
    ∃ ns, buildPostBody exampleRoot ⟨⟨[]⟩, []⟩ = some ns ∧
      ns = titleBold (metaOf exampleRoot) ++ metaTagLinks (metaOf exampleRoot) ⟨⟨[]⟩, []⟩ ++
        exampleBody.childrenOf.filter keepNode ∧
      ∀ (t : String) (a : List (String × String)) (cs : List Node),
        allowedTag t = false → Node.element t a cs ∉ ns :=
  ⟨rfl, buildPost_whitelist exampleRoot ⟨⟨[]⟩, []⟩ exampleBody rfl⟩

/-- A `> href` line with no surrounding whitespace is already trimmed. -/
theorem trimSpace_gt_line (href : Line) (hne : href ≠ [])
    (hns : ∀ c ∈ href, isSpaceChar c = false) :
    trimSpace ('>' :: ' ' :: href) = '>' :: ' ' :: href := by
  have h1 : List.dropWhile isSpaceChar ('>' :: ' ' :: href) = '>' :: ' ' :: href := by
    rw [List.dropWhile_cons, show isSpaceChar '>' = false from by decide]
    simp
  cases hrev : href.reverse with
  | nil =>
    exact absurd (by simpa using congrArg List.reverse hrev) hne
  | cons c cs =>
    have hc : isSpaceChar c = false := by
      refine hns c (List.mem_reverse.mp ?_)
      rw [hrev]
      exact List.mem_cons_self c cs
    rw [trimSpace, h1]
    rw [show ('>' :: ' ' :: href).reverse = c :: (cs ++ [' ', '>']) by
      rw [List.reverse_cons, List.reverse_cons, hrev]
      simp]
    rw [List.dropWhile_cons]
    simp only [hc, Bool.false_eq_true, if_false]
    rw [show (c :: (cs ++ [' ', '>'])).reverse = '>' :: ' ' :: (c :: cs).reverse by simp]
    rw [← hrev, List.reverse_reverse]

/-- `strings.Fields` on a non-empty all-non-whitespace tail yields the
single pending word. -/
theorem fieldsAux_nonspace (l : Line) :
    ∀ cur : Line, (∀ c ∈ l, isSpaceChar c = false) →
      fieldsAux cur l = if cur = [] ∧ l = [] then [] else [cur.reverse ++ l] := by
  induction l with
  | nil =>
    intro cur _
    by_cases hc : cur = []
    · simp [fieldsAux, hc]
    · simp [fieldsAux, hc]
  | cons c cs ih =>
    intro cur hl
    have hc : isSpaceChar c = false := hl c (List.mem_cons_self c cs)
    rw [fieldsAux, hc]
    rw [ih (c :: cur) fun d hd => hl d (List.mem_cons_of_mem c hd)]
    simp

/-- `strings.Fields` of a non-empty whitespace-free string is that one
word. -/
theorem fields_single (href : Line) (hne : href ≠ [])
    (hns : ∀ c ∈ href, isSpaceChar c = false) :
    fields href = [href] := by
  rw [fields, fieldsAux_nonspace href [] hns]
  simp [hne]

/-- C10: a link line `> href` with an href and no link text always
parses to a `link` element whose `href` attribute and text content both
equal the href — whatever follows the line, the line is neither dropped
nor an error; in particular a one-line body yields exactly that link. -/
theorem parseContent_linkLine (pandoc : Line → Option Node) (href : Line)
    (rest : List Line) (hne : href ≠ [])
    (hns : ∀ c ∈ href, isSpaceChar c = false) :
    parseContent pandoc (('>' :: ' ' :: href) :: rest) =
      (parseContentAux pandoc rest.length 1 rest).map
        (fun ns => Node.element "link" [("href", String.mk href)]
          [.charData (String.mk href)] :: ns) ∧
    parseContent pandoc [('>' :: ' ' :: href)] =
      .ok [Node.element "link" [("href", String.mk href)] [.charData (String.mk href)]] := by
  have htrim := trimSpace_gt_line href hne hns
  have hfields := fields_single href hne hns
  have hfence : ∀ l : Line, List.isPrefixOf fenceMark ('>' :: l) = false := fun _ => rfl
  have hbold : ∀ l : Line, List.isPrefixOf "# ".toList ('>' :: l) = false := fun _ => rfl
  have hitem : ∀ l : Line, List.isPrefixOf "- ".toList ('>' :: l) = false := fun _ => rfl
  have hlink : ∀ l : Line, List.isPrefixOf "> ".toList ('>' :: ' ' :: l) = true := by
    intro l
    simp [List.isPrefixOf]
  have key : ∀ rs : List Line,
      parseContent pandoc (('>' :: ' ' :: href) :: rs) =
        (parseContentAux pandoc rs.length 1 rs).map
          (fun ns => Node.element "link" [("href", String.mk href)]
            [.charData (String.mk href)] :: ns) := by
    intro rs
    rw [parseContent, List.length_cons, parseContentAux]
    simp only [htrim, hfence, hbold, hitem, hlink, Bool.false_eq_true, if_false, if_true]
    rw [show ('>' :: ' ' :: href).drop 2 = href from rfl, hfields]
    simp only [Nat.zero_add]
    cases parseContentAux pandoc rs.length 1 rs <;> rfl
  refine ⟨key rest, ?_⟩
  rw [key []]
  rfl

/-- Witness for the link-line theorem: the one-line body `> url` with a
trivial pandoc stub. -/
theorem parseContent_linkLine_witness :
    ("url".toList ≠ [] ∧ ∀ c ∈ "url".toList, isSpaceChar c = false) ∧
    parseContent (fun _ => none) [('>' :: ' ' :: "url".toList)] =
      .ok [Node.element "link" [("href", String.mk "url".toList)]
        [.charData (String.mk "url".toList)]] :=
  ⟨⟨by decide, by decide⟩,
    (parseContent_linkLine (fun _ => none) "url".toList [] (by decide) (by decide)).2⟩

/-- With no fence line remaining, the closing-fence scan fails. -/
theorem splitUntilFence_none (ls : List Line) (h : ∀ l ∈ ls, isFenceLine l = false) :
    splitUntilFence ls = none := by
  induction ls with
  | nil => rfl
  | cons l ls ih =>
    rw [splitUntilFence, h l (List.mem_cons_self l ls)]
    simp only [Bool.false_eq_true, if_false]
    rw [ih fun x hx => h x (List.mem_cons_of_mem l hx)]

/-- The closing-fence scan stops at the first fence line. -/
theorem splitUntilFence_append (a : List Line) (g : Line) (b : List Line)
    (ha : ∀ l ∈ a, isFenceLine l = false) (hg : isFenceLine g = true) :
    splitUntilFence (a ++ g :: b) = some (a, b) := by
  induction a with
  | nil =>
    rw [List.nil_append, splitUntilFence, hg]
    simp
  | cons l a ih =>
    rw [List.cons_append, splitUntilFence, ha l (List.mem_cons_self l a)]
    simp only [Bool.false_eq_true, if_false]
    rw [ih fun x hx => ha x (List.mem_cons_of_mem l hx)]

/-- A list with an odd number of `p`-elements splits at its first
`p`-element, with an even count after it. -/
theorem countP_odd_split {α : Type} (p : α → Bool) :
    ∀ l : List α, List.countP p l % 2 = 1 →
      ∃ a g b, l = a ++ g :: b ∧ (∀ x ∈ a, p x = false) ∧ p g = true ∧
        List.countP p b % 2 = 0 := by
  intro l
  induction l with
  | nil => intro h; simp [List.countP_nil] at h
  | cons x xs ih =>
    intro h
    rw [List.countP_cons] at h
    by_cases hx : p x
    · refine ⟨[], x, xs, rfl, ?_, hx, ?_⟩
      · intro y hy
        cases hy
      · rw [if_pos hx] at h
        omega
    · rw [if_neg hx, Nat.add_zero] at h
      obtain ⟨a, g, b, rfl, ha, hg, hb⟩ := ih h
      refine ⟨x :: a, g, b, rfl, ?_, hg, hb⟩
      intro y hy
      rcases List.mem_cons.mp hy with rfl | hy
      · simpa using hx
      · exact ha y hy

/-- The text-continuation loop consumes a prefix of non-stop lines. -/
theorem takeTextCont_spec (l : List Line) :
    (takeTextCont l).2 = l.drop (takeTextCont l).1.length ∧
    ∀ x ∈ l.take (takeTextCont l).1.length, stopLine x = false := by
  induction l with
  | nil => exact ⟨rfl, by intro x hx; cases hx⟩
  | cons a l ih =>
    by_cases ha : stopLine a
    · rw [takeTextCont, if_pos ha]
      exact ⟨rfl, by intro x hx; cases hx⟩
    · rw [takeTextCont, if_neg ha]
      refine ⟨?_, ?_⟩
      · simpa using ih.1
      · intro x hx
        simp only [List.length_cons, List.take_succ_cons] at hx
        rcases List.mem_cons.mp hx with rfl | hx
        · simpa using ha
        · exact ih.2 x hx

/-- A fence line stops a plain-text paragraph. -/
theorem stopLine_of_fence (l : Line) (h : isFenceLine l = true) : stopLine l = true := by
  rw [stopLine]
  rw [isFenceLine] at h
  simp [h]

/-- One non-fence line of `parseContent` consumes itself (plus, for a
plain-text paragraph, its stop-free continuation, which contains no
fence) and propagates any error arising from the remaining lines. -/
theorem parseContentAux_step (pandoc : Line → Option Node) (fuel i : Nat) (line : Line)
    (rest : List Line) (hline : isFenceLine line = false) :
    ∃ c : Nat, (∀ x ∈ rest.take c, isFenceLine x = false) ∧
      ∀ e : ParseErr,
        parseContentAux pandoc fuel (i + 1 + c) (rest.drop c) = .error e →
        parseContentAux pandoc (fuel + 1) i (line :: rest) = .error e := by
  rw [isFenceLine] at hline
  by_cases hb : List.isPrefixOf "# ".toList (trimSpace line)
  · refine ⟨0, fun x hx => absurd hx (List.not_mem_nil x), ?_⟩
    intro e he
    simp only [Nat.add_zero, List.drop_zero] at he
    rw [parseContentAux]
    simp only [hline, Bool.false_eq_true, if_false, hb, if_true, he]
  · by_cases hi : List.isPrefixOf "- ".toList (trimSpace line)
    · refine ⟨0, fun x hx => absurd hx (List.not_mem_nil x), ?_⟩
      intro e he
      simp only [Nat.add_zero, List.drop_zero] at he
      rw [parseContentAux]
      simp only [hline, hb, Bool.false_eq_true, if_false, hi, if_true, he]
    · by_cases hl : List.isPrefixOf "> ".toList (trimSpace line)
      · refine ⟨0, fun x hx => absurd hx (List.not_mem_nil x), ?_⟩
        intro e he
        simp only [Nat.add_zero, List.drop_zero] at he
        rw [parseContentAux]
        simp only [hline, hb, hi, Bool.false_eq_true, if_false, hl, if_true]
        cases hfld : fields ((trimSpace line).drop 2) with
        | nil => exact he
        | cons w ws => simp only [he]
      · by_cases hblank : trimSpace line = []
        · refine ⟨0, fun x hx => absurd hx (List.not_mem_nil x), ?_⟩
          intro e he
          simp only [Nat.add_zero, List.drop_zero] at he
          rw [parseContentAux]
          simp only [hline, hb, hi, hl, Bool.false_eq_true, if_false, hblank, if_true, he]
          simp only [show List.isPrefixOf fenceMark ([] : Line) = false from rfl,
            show List.isPrefixOf "# ".toList ([] : Line) = false from rfl,
            show List.isPrefixOf "- ".toList ([] : Line) = false from rfl,
            show List.isPrefixOf "> ".toList ([] : Line) = false from rfl,
            Bool.false_eq_true, if_false]
        · refine ⟨(takeTextCont rest).1.length, ?_, ?_⟩
          · intro x hx
            cases hfx : isFenceLine x with
            | false => rfl
            | true =>
              have hstop := (takeTextCont_spec rest).2 x hx
              rw [stopLine_of_fence x hfx] at hstop
              cases hstop
          · intro e he
            rw [parseContentAux]
            simp only [hline, hb, hi, hl, Bool.false_eq_true, if_false, if_neg hblank]
            rw [(takeTextCont_spec rest).1] at *
            simp only [he]

/-- `parseContent` on lines containing an opening fence that is never
closed (an even number of fence lines precede it, none follow it) fails
with the unclosed-code-block error, reporting the 1-based position of
that fence among the lines given to `parseContent`. -/
theorem parseContentAux_unclosed (pandoc : Line → Option Node) :
    ∀ fuel i : Nat, ∀ pre : List Line, ∀ f : Line, ∀ post : List Line,
      (pre ++ f :: post).length ≤ fuel →
      isFenceLine f = true →
      (∀ l ∈ post, isFenceLine l = false) →
      List.countP isFenceLine pre % 2 = 0 →
      parseContentAux pandoc fuel i (pre ++ f :: post) =
        .error (.unclosedCode (i + pre.length + 1)) := by
  intro fuel
  induction fuel with
  | zero =>
    intro i pre f post hfuel _ _ _
    rw [List.length_append, List.length_cons] at hfuel
    omega
  | succ fuel ih =>
    intro i pre f post hfuel hf hpost hpre
    cases pre with
    | nil =>
      rw [List.nil_append, parseContentAux]
      have hf' := hf
      rw [isFenceLine] at hf'
      simp only [hf', if_true]
      simp only [splitUntilFence_none post hpost]
      simp
    | cons p pre' =>
      by_cases hp : isFenceLine p = true
      · have hodd : List.countP isFenceLine pre' % 2 = 1 := by
          rw [List.countP_cons, hp] at hpre
          simp at hpre
          omega
        obtain ⟨a, g, b, rfl, ha, hg, hb⟩ := countP_odd_split isFenceLine pre' hodd
        rw [List.cons_append, parseContentAux]
        have hp' := hp
        rw [isFenceLine] at hp'
        simp only [hp', if_true]
        rw [show (a ++ g :: b) ++ f :: post = a ++ g :: (b ++ f :: post) by simp]
        simp only [splitUntilFence_append a g (b ++ f :: post) ha hg]
        have hrec := ih (i + a.length + 2) b f post
          (by simp [List.length_append, List.length_cons] at hfuel ⊢; omega) hf hpost hb
        rw [show i + (p :: (a ++ g :: b)).length + 1 = i + a.length + 2 + b.length + 1 by
          simp [List.length_cons, List.length_append]; omega]
        simp only [hrec]
      · have hpfalse : isFenceLine p = false := by
          cases hpb : isFenceLine p
          · rfl
          · exact absurd hpb hp
        obtain ⟨c, hcfree, hstep⟩ :=
          parseContentAux_step pandoc fuel i p (pre' ++ f :: post) hpfalse
        have hcle : c ≤ pre'.length := by
          by_contra hgt
          push_neg at hgt
          have hd : ∃ d, c - pre'.length = d + 1 := ⟨c - pre'.length - 1, by omega⟩
          obtain ⟨d, hd⟩ := hd
          have hfmem : f ∈ (pre' ++ f :: post).take c := by
            rw [List.take_append_eq_append_take, hd]
            exact List.mem_append.mpr (Or.inr (by
              rw [List.take_succ_cons]
              exact List.mem_cons_self f _))
          have := hcfree f hfmem
          rw [hf] at this
          cases this
        have hsplit : (pre' ++ f :: post).drop c = pre'.drop c ++ f :: post :=
          List.drop_append_of_le_length hcle
        have hprefree : ∀ x ∈ pre'.take c, isFenceLine x = false := by
          intro x hx
          refine hcfree x ?_
          rw [List.take_append_of_le_length hcle]
          exact hx
        have hpre'cnt : List.countP isFenceLine (pre'.drop c) % 2 = 0 := by
          have hsplitcnt : List.countP isFenceLine pre' =
              List.countP isFenceLine (pre'.take c) + List.countP isFenceLine (pre'.drop c) := by
            rw [← List.countP_append, List.take_append_drop]
          have hz : List.countP isFenceLine (pre'.take c) = 0 :=
            List.countP_eq_zero.mpr fun x hx => by rw [hprefree x hx]; exact Bool.false_ne_true
          rw [List.countP_cons, hpfalse] at hpre
          simp at hpre
          omega
        have hrec := ih (i + 1 + c) (pre'.drop c) f post
          (by
            simp only [List.length_append, List.length_cons, List.length_drop] at hfuel ⊢
            omega) hf hpost hpre'cnt
        rw [← hsplit] at hrec
        have hfin := hstep _ hrec
        rw [List.cons_append]
        rw [show i + (p :: pre').length + 1 = i + 1 + c + (pre'.drop c).length + 1 by
          simp [List.length_cons, List.length_drop]; omega]
        exact hfin

/-- C9 amended: a custom-syntax source (with well-formed metadata) whose
body contains an opening code fence with no subsequent closing fence
fails parsing with the unclosed-code-block hard error, and the reported
number is the 1-based position of the opening fence among the body lines
(the lines after the two metadata lines) — that is, the fence's file
line number minus 2, not the file line number itself. -/
theorem parseCustomSyntax_unclosed (pandoc : Line → Option Node) (l0 l1 : Line)
    (pre : List Line) (f : Line) (post : List Line) (title : Line) (tagLabels : List Line)
    (hmeta : parseMetadata l0 l1 = .ok (title, tagLabels))
    (hf : isFenceLine f = true)
    (hpost : ∀ l ∈ post, isFenceLine l = false)
    (hpre : List.countP isFenceLine pre % 2 = 0) :
    parseCustomSyntax pandoc (l0 :: l1 :: (pre ++ f :: post)) =
      .error (.unclosedCode (pre.length + 1)) := by
  rw [parseCustomSyntax]
  simp only [hmeta]
  simp only [parseContent]
  simp only [parseContentAux_unclosed pandoc (pre ++ f :: post).length 0 pre f post
    (Nat.le_refl _) hf hpost hpre]
  simp

/-- Witness for the amended unclosed-fence theorem: a three-line source
whose only body line is an unclosed opening fence. -/
theorem parseCustomSyntax_unclosed_witness :
    parseMetadata "title: 't'".toList "tags: []".toList = .ok ("t".toList, []) ∧
    isFenceLine "```".toList = true ∧
    parseCustomSyntax (fun _ => none)
      ("title: 't'".toList :: "tags: []".toList :: ([] ++ "```".toList :: [])) =
      .error (.unclosedCode (List.length ([] : List Line) + 1)) :=
  ⟨rfl, rfl,
    parseCustomSyntax_unclosed (fun _ => none) "title: 't'".toList "tags: []".toList
      [] "```".toList [] "t".toList [] rfl rfl
      (fun l hl => absurd hl (List.not_mem_nil l)) rfl⟩

/-- C9 counterexample: for the source whose unclosed fence sits on file
line 3 (the first body line), the error carries the number 1 — the
body-relative index — not the file line number 3 at which the block
starts: `parseCodeBlock` reports `startIdx+1` within `lines[2:]`. -/
theorem unclosedCode_misreports_file_line :
    parseCustomSyntax (fun _ => none)
      ["title: 't'".toList, "tags: []".toList, "```".toList] =
      .error (.unclosedCode 1) ∧
    isFenceLine "```".toList = true ∧
    isFenceLine "title: 't'".toList = false ∧
    isFenceLine "tags: []".toList = false ∧
    (1 : Nat) ≠ 3 :=
  ⟨rfl, rfl, rfl, rfl, by decide⟩
